import Mathlib

/-!
Verification of the package-dependency registry in
`tools/genception/driver/packageregistry.go`.

Go strings are embedded as `List Char` (`GoStr`), Go maps as association
lists with an overwrite-on-insert operation, and the recursive graph walk
as a fuel-indexed function returning `Option` (`none` models divergence /
fuel exhaustion; the Go function has no fuel, so a `some` result at an
adequate fuel is the statement that the Go recursion terminates).
A Go runtime panic (out-of-range index) is modelled as `none` / `Option`.
-/

set_option maxHeartbeats 1000000

/-- A Go string, embedded as its list of characters. -/
abbrev GoStr := List Char

/-- Go map lookup on an association list (first binding wins; `insertKey`
conses fresh bindings, so the first binding is the most recent one). -/
def lookupKey {α : Type} : List (GoStr × α) → GoStr → Option α
  | [], _ => none
  | (k', v) :: rest, k => if k' = k then some v else lookupKey rest k

/-- Remove every binding of key `k`. -/
def eraseKey {α : Type} (k : GoStr) (m : List (GoStr × α)) : List (GoStr × α) :=
  m.filter (fun e => decide (e.1 ≠ k))

/-- Go map assignment `m[k] = v`: overwrite any existing binding of `k`. -/
def insertKey {α : Type} (m : List (GoStr × α)) (k : GoStr) (v : α) : List (GoStr × α) :=
  (k, v) :: eraseKey k m

/-- The keys of an association list. -/
def keysOf {α : Type} (m : List (GoStr × α)) : List GoStr :=
  m.map Prod.fst

/-- One package node (`FlatPackage`): the fields of the record that the
registry code reads or writes. `Imports` is the raw-import-to-identifier
map, kept as an association list. -/
structure FlatPackage where
  ID : GoStr
  PkgPath : GoStr
  GoFiles : List GoStr
  Imports : List (GoStr × GoStr)
  Standard : Bool
deriving DecidableEq

/-- Modelled from the spec: the accessor `FlatPackage.IsStdlib` lives in
`flatpackage.go`, which is not part of this repository slice; §3 of the
spec defines it as the node's immutable standard-library boolean flag,
and `Match` in the registry file reads the `Standard` field directly for
the same purpose. -/
def FlatPackage.IsStdlib (pkg : FlatPackage) : Bool := pkg.Standard

/-- The import-edge targets of a node (the values of its `Imports` map). -/
def importTargets (pkg : FlatPackage) : List GoStr := pkg.Imports.map Prod.snd

/-- The Go constant `stdlibPrefix = "@@io_bazel_rules_go//stdlib:"`. -/
def stdlibPrefix : GoStr := "@@io_bazel_rules_go//stdlib:".toList

/-- The function `canonicalizeId(path, id string, pkg *FlatPackage) string`. -/
def canonicalizeId (path id : GoStr) (pkg : FlatPackage) : GoStr :=
  if stdlibPrefix.isPrefixOf id then id.drop stdlibPrefix.length
  else if pkg.IsStdlib then id
  else path

/-- The function `rewritePackage(pkg *FlatPackage)`: set `ID` to `PkgPath`, then run
every import edge through the canonicalizer (the import map key is the
`path` argument, its value the `id` argument). -/
def rewritePackage (pkg : FlatPackage) : FlatPackage :=
  let pkg1 : FlatPackage := { pkg with ID := pkg.PkgPath }
  { pkg1 with Imports := pkg1.Imports.map (fun kv => (kv.1, canonicalizeId kv.1 kv.2 pkg1)) }

/-- The loop of `isSuperset`: scan `a`, comparing each element with
`b[bi]`. The Go code evaluates `a[i] == b[bi]` before any bounds
reasoning, so `b[bi]?` = `none` (only possible when `b` is empty and `a`
is not) models the Go index-out-of-range panic as `none`. -/
def isSupersetLoop (b : List GoStr) : List GoStr → Nat → Option Bool
  | [], _ => some false
  | x :: rest, bi =>
    match b[bi]? with
    | none => none
    | some y =>
      if x = y then
        if bi + 1 = b.length then some true else isSupersetLoop b rest (bi + 1)
      else isSupersetLoop b rest bi

/-- The function `isSuperset(a, b []string) bool`: `some r` is a normal return of `r`,
`none` is the panic on `b[0]` with empty `b` and nonempty `a`. -/
def isSuperset (a b : List GoStr) : Option Bool :=
  if a.length < b.length then some false else isSupersetLoop b a 0

/-- The `PackageRegistry` record: nodes keyed by logical package path, plus the
standard-library index mapping package path to identity. -/
structure PackageRegistry where
  packages : List (GoStr × FlatPackage)
  stdlib : List (GoStr × GoStr)
deriving DecidableEq

/-- The registry produced by `NewPackageRegistry()` before any `Add`. -/
def emptyRegistry : PackageRegistry := ⟨[], []⟩

/-- The body of `Add`'s loop for one package: rewrite, store by logical
path, and index standard-library nodes. -/
def add1 (pr : PackageRegistry) (pkg : FlatPackage) : PackageRegistry :=
  let rp := rewritePackage pkg
  { packages := insertKey pr.packages rp.PkgPath rp
  , stdlib := if rp.IsStdlib then insertKey pr.stdlib rp.PkgPath rp.ID else pr.stdlib }

/-- The method `func (pr *PackageRegistry) Add(pkgs ...*FlatPackage)`. -/
def PackageRegistry.Add (pr : PackageRegistry) (pkgs : List FlatPackage) : PackageRegistry :=
  pkgs.foldl add1 pr

/-- The constructor `NewPackageRegistry(pkgs ...*FlatPackage)`. -/
def NewPackageRegistry (pkgs : List FlatPackage) : PackageRegistry :=
  emptyRegistry.Add pkgs

/-- The method `func (pr *PackageRegistry) Update(pkg *FlatPackage)`. The result is
`none` when the `isSuperset` call panics (existing file list empty,
incoming file list nonempty). The insert-as-new branch stores the node
verbatim — it does not call `rewritePackage`. -/
def PackageRegistry.Update (pr : PackageRegistry) (pkg : FlatPackage) : Option PackageRegistry :=
  match lookupKey pr.packages pkg.PkgPath with
  | none => some { pr with packages := insertKey pr.packages pkg.PkgPath pkg }
  | some existing =>
    match isSuperset pkg.GoFiles existing.GoFiles with
    | none => none
    | some true =>
      let merged : FlatPackage := { existing with GoFiles := pkg.GoFiles }
      some { pr with packages := insertKey pr.packages pkg.PkgPath merged }
    | some false => some pr

/-- The `resolve` closure built inside `ResolveImports`: look an import
path up in the standard-library index; return the indexed identity, or
the empty string when absent. -/
def resolveFn (pr : PackageRegistry) : GoStr → GoStr := fun importPath =>
  match lookupKey pr.stdlib importPath with
  | some pkgID => pkgID
  | none => []

/-- Modelled from the spec: the delegated per-node import-resolution step
(`FlatPackage.ResolveImports` in `flatpackage.go`, absent from this
slice). Per §4.5/§6 it receives the registry's resolver closure, may
fail, and its failure is the only error source of the registry's
`ResolveImports`; we abstract it as a function parameter. -/
def NodeResolver (ε : Type) : Type := (GoStr → GoStr) → FlatPackage → Except ε FlatPackage

/-- Modelled from the spec: the test-split step
(`FlatPackage.MoveTestFiles` in `flatpackage.go`, absent from this
slice). Per §4.5/§6 it never fails and optionally produces a synthesized
external-test node, mutating the original node; we abstract it as a
function returning the updated node and the optional split node. -/
def TestSplitter : Type := FlatPackage → FlatPackage × Option FlatPackage

/-- One iteration of the `ResolveImports` loop: run the delegated
resolution step on the node (propagating its error), store the mutated
node back, and insert a produced test node under its own `ID`. -/
def resolveStep {ε : Type} (rn : NodeResolver ε) (ts : TestSplitter) (resolve : GoStr → GoStr)
    (pr : PackageRegistry) (entry : GoStr × FlatPackage) : Except ε PackageRegistry :=
  match rn resolve entry.2 with
  | Except.error e => Except.error e
  | Except.ok pkg' =>
    let pr1 : PackageRegistry := { pr with packages := insertKey pr.packages entry.1 (ts pkg').1 }
    match (ts pkg').2 with
    | none => Except.ok pr1
    | some testFp => Except.ok { pr1 with packages := insertKey pr1.packages testFp.ID testFp }

/-- The `ResolveImports` loop over a snapshot of the registry entries. -/
def resolveLoop {ε : Type} (rn : NodeResolver ε) (ts : TestSplitter) (resolve : GoStr → GoStr) :
    PackageRegistry → List (GoStr × FlatPackage) → Except ε PackageRegistry
  | pr, [] => Except.ok pr
  | pr, e :: rest =>
    match resolveStep rn ts resolve pr e with
    | Except.error err => Except.error err
    | Except.ok pr1 => resolveLoop rn ts resolve pr1 rest

/-- The method `func (pr *PackageRegistry) ResolveImports() error`, parameterized by
the two delegated per-node operations (see `NodeResolver`,
`TestSplitter`). -/
def PackageRegistry.ResolveImports {ε : Type} (rn : NodeResolver ε) (ts : TestSplitter)
    (pr : PackageRegistry) : Except ε PackageRegistry :=
  resolveLoop rn ts (resolveFn pr) pr pr.packages

/-- The walker's visited set: Go's `map[string]*FlatPackage` keyed by
node identity. -/
abbrev Visited := List (GoStr × FlatPackage)

/-- The import loop inside `walk`: for every import target not yet in the
visited set, recurse (the recursive call is the function argument `w`). -/
def walkList (w : Visited → GoStr → Option Visited) : Visited → List GoStr → Option Visited
  | acc, [] => some acc
  | acc, v :: rest =>
    if v ∈ keysOf acc then walkList w acc rest
    else
      match w acc v with
      | none => none
      | some acc2 => walkList w acc2 rest

/-- The method `func (pr *PackageRegistry) walk(acc map[string]*FlatPackage, root string)`,
fuel-indexed: look the root up (a missing root is skipped after logging),
insert the found node keyed by its `ID`, then recurse over its import
targets. `none` means the fuel ran out. -/
def walkF (ps : List (GoStr × FlatPackage)) : Nat → Visited → GoStr → Option Visited
  | 0, _, _ => none
  | fuel + 1, acc, root =>
    match lookupKey ps root with
    | none => some acc
    | some pkg =>
      walkList (fun a r => walkF ps fuel a r) (insertKey acc pkg.ID pkg) (importTargets pkg)

/-- The per-root walk loop shared by `Query` and `Match`, run with fuel
`ps.length + 1`, which the termination theorem shows is always enough. -/
def walkRoots (ps : List (GoStr × FlatPackage)) : Visited → List GoStr → Option Visited
  | acc, [] => some acc
  | acc, r :: rest =>
    match walkF ps (ps.length + 1) acc r with
    | none => none
    | some acc2 => walkRoots ps acc2 rest

/-- The method `func (pr *PackageRegistry) Query(req *DriverRequest, queries []string)`
(the unused `req` parameter is omitted): the returned roots are the
caller-supplied queries verbatim; the packages are the visited set
materialized at the end. -/
def PackageRegistry.Query (pr : PackageRegistry) (queries : List GoStr) :
    Option (List GoStr × List FlatPackage) :=
  match walkRoots pr.packages [] queries with
  | none => none
  | some acc => some (queries, acc.map Prod.snd)

/-- Modelled from the spec: `RulesGoStdlibLabel` is declared outside this
repository slice; §6 of the spec describes it as a fixed literal label
string recognized during `Match` (the reserved standard-library root
label). The theorems below treat it as an opaque constant. -/
def RulesGoStdlibLabel : GoStr := "@io_bazel_rules_go//:stdlib".toList

/-- The `"_xtest"` companion-label suffix used by `Match`. -/
def xtestSuffix : GoStr := "_xtest".toList

/-- Label normalization in `Match`: prepend `@` when it is missing. -/
def normalizeLabel (label : GoStr) : GoStr :=
  if ("@".toList).isPrefixOf label then label else "@".toList ++ label

/-- Insertion into the `roots` set (`map[string]struct{}`): a no-op when
the root is already present. -/
def insertRoot (roots : List GoStr) (r : GoStr) : List GoStr :=
  if r ∈ roots then roots else roots ++ [r]

/-- The body of `Match`'s label loop: normalize the label; the reserved
standard-library label contributes every standard-library-flagged node's
identity; any other label contributes itself plus an existing `_xtest`
companion node's key. -/
def matchRootsOne (pr : PackageRegistry) (roots : List GoStr) (label : GoStr) : List GoStr :=
  let nl := normalizeLabel label
  if nl = RulesGoStdlibLabel then
    pr.packages.foldl (fun r e => if e.2.Standard then insertRoot r e.2.ID else r) roots
  else
    let r1 := insertRoot roots nl
    if (lookupKey pr.packages (nl ++ xtestSuffix)).isSome then insertRoot r1 (nl ++ xtestSuffix)
    else r1

/-- The root set computed by `Match` from its labels. -/
def matchRoots (pr : PackageRegistry) (labels : List GoStr) : List GoStr :=
  labels.foldl (matchRootsOne pr) []

/-- The method `func (pr *PackageRegistry) Match(labels []string)`. -/
def PackageRegistry.Match (pr : PackageRegistry) (labels : List GoStr) :
    Option (List GoStr × List FlatPackage) :=
  let roots := matchRoots pr labels
  match walkRoots pr.packages [] roots with
  | none => none
  | some acc => some (roots, acc.map Prod.snd)

/-- Well-formedness of the node map: every stored node's `ID` equals its
key. `Add` establishes this (it rewrites before storing); `Update`'s
insert-as-new branch preserves it only for already-canonical nodes. -/
def WFReg (ps : List (GoStr × FlatPackage)) : Prop :=
  ∀ e ∈ ps, (e.2).ID = e.1

/-- The visited-set invariant of the walker: every visited binding is a
registry node stored under its own identity. -/
def AccGood (ps : List (GoStr × FlatPackage)) (acc : Visited) : Prop :=
  ∀ e ∈ acc, lookupKey ps e.1 = some e.2 ∧ (e.2).ID = e.1

/-- Key `k`'s node (if any) has all its in-registry import targets inside
the visited set `acc`. -/
def NodeClosed (ps : List (GoStr × FlatPackage)) (acc : Visited) (k : GoStr) : Prop :=
  ∀ pkg, lookupKey ps k = some pkg →
    ∀ v ∈ importTargets pkg, v ∈ keysOf ps → v ∈ keysOf acc

/-- Every visited key is closed (its import targets that exist in the
registry are visited as well). -/
def ClosedAll (ps : List (GoStr × FlatPackage)) (acc : Visited) : Prop :=
  ∀ k ∈ keysOf acc, NodeClosed ps acc k

/-- Reachability in the registry's import graph: `Reaches ps root k` means
the walk started at `root` logically reaches key `k` (only keys present
in the registry are reachable). -/
inductive Reaches (ps : List (GoStr × FlatPackage)) : GoStr → GoStr → Prop where
  | self (root : GoStr) : root ∈ keysOf ps → Reaches ps root root
  | step {root k v : GoStr} {pkg : FlatPackage} : Reaches ps root k →
      lookupKey ps k = some pkg → v ∈ importTargets pkg → v ∈ keysOf ps →
      Reaches ps root v

/-- The number of registry keys not yet visited — the walker's
termination measure. -/
def missingCount (ps : List (GoStr × FlatPackage)) (acc : Visited) : Nat :=
  ((keysOf ps).filter (fun k => decide (k ∉ keysOf acc))).length

/-- Postcondition of one `walk` call from `acc` on `root`, ending at
`acc'`: the visited set stays good, grows monotonically, new keys are
reachable from `root`, a present root gets visited, new keys are closed,
and key-distinctness is preserved. -/
def WalkPost (ps : List (GoStr × FlatPackage)) (root : GoStr) (acc acc' : Visited) : Prop :=
  AccGood ps acc' ∧
  (∀ k, k ∈ keysOf acc → k ∈ keysOf acc') ∧
  (∀ k, k ∈ keysOf acc' → k ∈ keysOf acc ∨ Reaches ps root k) ∧
  (root ∈ keysOf ps → root ∈ keysOf acc') ∧
  (∀ k, k ∈ keysOf acc' → k ∉ keysOf acc → NodeClosed ps acc' k) ∧
  ((keysOf acc).Nodup → (keysOf acc').Nodup)

/-- Same postcondition for the import loop over targets `vs`. -/
def ListPost (ps : List (GoStr × FlatPackage)) (vs : List GoStr) (acc acc' : Visited) : Prop :=
  AccGood ps acc' ∧
  (∀ k, k ∈ keysOf acc → k ∈ keysOf acc') ∧
  (∀ k, k ∈ keysOf acc' → k ∈ keysOf acc ∨ ∃ v ∈ vs, Reaches ps v k) ∧
  (∀ v ∈ vs, v ∈ keysOf ps → v ∈ keysOf acc') ∧
  (∀ k, k ∈ keysOf acc' → k ∉ keysOf acc → NodeClosed ps acc' k) ∧
  ((keysOf acc).Nodup → (keysOf acc').Nodup)

/-- A walk step function satisfying the walker's contract. -/
def WProp (ps : List (GoStr × FlatPackage)) (w : Visited → GoStr → Option Visited) : Prop :=
  ∀ acc root acc', AccGood ps acc → w acc root = some acc' → WalkPost ps root acc acc'

instance (ps : List (GoStr × FlatPackage)) : Decidable (WFReg ps) :=
  inferInstanceAs (Decidable (∀ e ∈ ps, (e.2).ID = e.1))

/-- One registration operation of claim C10's operation sequences. -/
inductive RegOp where
  | addOp : List FlatPackage → RegOp
  | updateOp : FlatPackage → RegOp

/-- Apply one registration operation (`none` = the operation panicked). -/
def applyOp (pr : PackageRegistry) : RegOp → Option PackageRegistry
  | RegOp.addOp pkgs => some (pr.Add pkgs)
  | RegOp.updateOp pkg => pr.Update pkg

/-- Apply a sequence of registration operations. -/
def applyOps : PackageRegistry → List RegOp → Option PackageRegistry
  | pr, [] => some pr
  | pr, op :: ops =>
    match applyOp pr op with
    | none => none
    | some pr' => applyOps pr' ops

/-- The standard-library-index invariant of §3: every index entry's node
exists and is standard-library-flagged. -/
def StdlibInv (pr : PackageRegistry) : Prop :=
  ∀ p id, lookupKey pr.stdlib p = some id →
    ∃ pkg, lookupKey pr.packages p = some pkg ∧ pkg.Standard = true

/-- Flag-consistency of one `Add` batch against the running registry: a
non-standard-library node is never registered at a path that is already
standard-library-indexed. -/
def addOK : PackageRegistry → List FlatPackage → Prop
  | _, [] => True
  | pr, pkg :: rest =>
    (pkg.Standard = false → lookupKey pr.stdlib pkg.PkgPath = none) ∧ addOK (add1 pr pkg) rest

/-- Flag-consistency of one operation. -/
def opOK (pr : PackageRegistry) : RegOp → Prop
  | RegOp.addOp pkgs => addOK pr pkgs
  | RegOp.updateOp _ => True

/-- Flag-consistency of an operation sequence. -/
def opsOK : PackageRegistry → List RegOp → Prop
  | _, [] => True
  | pr, op :: ops => opOK pr op ∧ ∀ pr', applyOp pr op = some pr' → opsOK pr' ops


/-- The root contribution of one label in `Match` (claim C8): the
reserved standard-library label contributes every standard-library
node's identity; any other label contributes its normalized self, plus
the `_xtest` companion key when that key is in the registry. -/
def MatchContrib (pr : PackageRegistry) (label x : GoStr) : Prop :=
  (normalizeLabel label = RulesGoStdlibLabel ∧
    ∃ e ∈ pr.packages, (e.2).Standard = true ∧ (e.2).ID = x) ∨
  (normalizeLabel label ≠ RulesGoStdlibLabel ∧
    (x = normalizeLabel label ∨
      (x = normalizeLabel label ++ xtestSuffix ∧
        (lookupKey pr.packages (normalizeLabel label ++ xtestSuffix)).isSome = true)))

/-! ### Concrete example data used by witnesses and counterexamples -/

/-- A node whose externally supplied identity differs from its path. -/
def badPkg : FlatPackage :=
  { ID := "x".toList, PkgPath := "p".toList, GoFiles := [], Imports := [], Standard := false }

/-- An existing node with an empty file list. -/
def exC3 : FlatPackage :=
  { ID := "p".toList, PkgPath := "p".toList, GoFiles := [], Imports := [], Standard := false }

/-- An incoming duplicate of `exC3` carrying one file. -/
def incC3 : FlatPackage := { exC3 with GoFiles := ["a.go".toList] }

/-- A registry already holding `exC3` under its path. -/
def prC3 : PackageRegistry := { packages := [("p".toList, exC3)], stdlib := [] }

/-- An existing node with files `a.go, b.go` (spec §8 merge example). -/
def exMerge : FlatPackage :=
  { ID := "m".toList, PkgPath := "m".toList, GoFiles := ["a.go".toList, "b.go".toList],
    Imports := [], Standard := false }

/-- The incoming duplicate with files `a.go, c.go, b.go`. -/
def incMerge : FlatPackage := { exMerge with GoFiles := ["a.go".toList, "c.go".toList, "b.go".toList] }

/-- A registry already holding `exMerge` under its path. -/
def prMerge : PackageRegistry := { packages := [("m".toList, exMerge)], stdlib := [] }

/-- Node `a`, importing `b`. -/
def pkgA : FlatPackage :=
  { ID := "ign".toList, PkgPath := "a".toList, GoFiles := [],
    Imports := [("b".toList, "b".toList)], Standard := false }

/-- Node `b`, importing `a` — closing the cycle with `pkgA`. -/
def pkgB : FlatPackage :=
  { ID := "ign".toList, PkgPath := "b".toList, GoFiles := [],
    Imports := [("a".toList, "a".toList)], Standard := false }

/-- A registry whose import graph is the cycle `a → b → a`. -/
def cyclicRegistry : PackageRegistry := NewPackageRegistry [pkgA, pkgB]

/-- A standard-library node at path `p`. -/
def stdP : FlatPackage :=
  { ID := "p".toList, PkgPath := "p".toList, GoFiles := [], Imports := [], Standard := true }

/-- A non-standard-library node at the same path `p`. -/
def nonstdP : FlatPackage := { stdP with Standard := false }

/-- Register the stdlib node at `p`, then a non-stdlib node at `p`. -/
def cexOps : List RegOp := [RegOp.addOp [stdP], RegOp.addOp [nonstdP]]

/-- The registry those two operations produce: the node at `p` is no
longer standard-library-flagged, but the index entry for `p` remains. -/
def cexReg : PackageRegistry :=
  { packages := [("p".toList, nonstdP)], stdlib := [("p".toList, "p".toList)] }

/-- The registry produced by adding only the stdlib node `stdP`. -/
def addedStdReg : PackageRegistry :=
  { packages := [("p".toList, stdP)], stdlib := [("p".toList, "p".toList)] }

/-- A standard-library node at path `fmt`. -/
def fmtPkg : FlatPackage :=
  { ID := "ign".toList, PkgPath := "fmt".toList, GoFiles := [], Imports := [], Standard := true }

/-- A registry holding the stdlib node `fmt` (so its index maps
`fmt ↦ fmt`). -/
def stdReg : PackageRegistry := NewPackageRegistry [fmtPkg]

/-- A trivial delegated resolution step that always succeeds. -/
def rnW : NodeResolver Unit := fun _ p => Except.ok p

/-- A trivial test splitter that never splits. -/
def tsW : TestSplitter := fun p => (p, none)

/-! ### Association-list lemmas -/

theorem keysOf_cons {α : Type} (e : GoStr × α) (rest : List (GoStr × α)) :
    keysOf (e :: rest) = e.1 :: keysOf rest := rfl

theorem lookupKey_mem {α : Type} {m : List (GoStr × α)} {k : GoStr} {v : α}
    (h : lookupKey m k = some v) : (k, v) ∈ m := by
  induction m with
  | nil => simp [lookupKey] at h
  | cons e rest ih =>
    obtain ⟨k', v'⟩ := e
    by_cases hk : k' = k
    · subst hk
      have h' : v' = v := by simpa [lookupKey] using h
      subst h'
      exact List.mem_cons_self _ _
    · simp only [lookupKey, if_neg hk] at h
      exact List.mem_cons_of_mem _ (ih h)

theorem mem_keysOf {α : Type} {m : List (GoStr × α)} {k : GoStr} :
    k ∈ keysOf m ↔ ∃ v, (k, v) ∈ m := by
  simp only [keysOf, List.mem_map]
  constructor
  · rintro ⟨⟨k', v⟩, hm, rfl⟩
    exact ⟨v, hm⟩
  · rintro ⟨v, hm⟩
    exact ⟨(k, v), hm, rfl⟩

theorem lookupKey_eq_none {α : Type} {m : List (GoStr × α)} {k : GoStr} :
    lookupKey m k = none ↔ k ∉ keysOf m := by
  induction m with
  | nil => simp [lookupKey, keysOf]
  | cons e rest ih =>
    obtain ⟨k', v'⟩ := e
    rw [keysOf_cons]
    by_cases hk : k' = k
    · subst hk
      simp [lookupKey]
    · simp only [lookupKey, if_neg hk, List.mem_cons]
      rw [ih]
      constructor
      · intro h hmem
        rcases hmem with h1 | h2
        · exact hk h1.symm
        · exact h h2
      · intro h hmem
        exact h (Or.inr hmem)

theorem lookupKey_isSome_of_mem_keys {α : Type} {m : List (GoStr × α)} {k : GoStr}
    (h : k ∈ keysOf m) : ∃ v, lookupKey m k = some v := by
  cases hl : lookupKey m k with
  | none => exact absurd h (lookupKey_eq_none.mp hl)
  | some v => exact ⟨v, rfl⟩

theorem mem_keys_of_lookupKey {α : Type} {m : List (GoStr × α)} {k : GoStr} {v : α}
    (h : lookupKey m k = some v) : k ∈ keysOf m :=
  mem_keysOf.mpr ⟨v, lookupKey_mem h⟩

theorem eraseKey_subset {α : Type} {k : GoStr} {m : List (GoStr × α)} {e : GoStr × α}
    (h : e ∈ eraseKey k m) : e ∈ m := by
  simp only [eraseKey, List.mem_filter] at h
  exact h.1

theorem mem_keysOf_eraseKey {α : Type} {k j : GoStr} {m : List (GoStr × α)} :
    j ∈ keysOf (eraseKey k m) ↔ j ∈ keysOf m ∧ j ≠ k := by
  simp only [mem_keysOf, eraseKey, List.mem_filter, decide_eq_true_eq]
  constructor
  · rintro ⟨v, hv, hne⟩
    exact ⟨⟨v, hv⟩, hne⟩
  · rintro ⟨⟨v, hv⟩, hne⟩
    exact ⟨v, hv, hne⟩

theorem keysOf_eraseKey {α : Type} (k : GoStr) (m : List (GoStr × α)) :
    keysOf (eraseKey k m) = (keysOf m).filter (fun j => decide (j ≠ k)) := by
  induction m with
  | nil => rfl
  | cons e rest ih =>
    by_cases hk : e.1 = k
    · have h1 : eraseKey k (e :: rest) = eraseKey k rest := by
        simp [eraseKey, List.filter_cons, hk]
      have h2 : (keysOf (e :: rest)).filter (fun j => decide (j ≠ k)) =
          (keysOf rest).filter (fun j => decide (j ≠ k)) := by
        rw [keysOf_cons]
        simp [List.filter_cons, hk]
      rw [h1, h2, ih]
    · have h1 : eraseKey k (e :: rest) = e :: eraseKey k rest := by
        simp [eraseKey, List.filter_cons, hk]
      have h2 : (keysOf (e :: rest)).filter (fun j => decide (j ≠ k)) =
          e.1 :: (keysOf rest).filter (fun j => decide (j ≠ k)) := by
        rw [keysOf_cons]
        simp [List.filter_cons, hk]
      rw [h1, h2, keysOf_cons, ih]

theorem lookupKey_eraseKey_ne {α : Type} {k j : GoStr} {m : List (GoStr × α)} (h : j ≠ k) :
    lookupKey (eraseKey k m) j = lookupKey m j := by
  induction m with
  | nil => rfl
  | cons e rest ih =>
    obtain ⟨k', v'⟩ := e
    by_cases hk : k' = k
    · have h1 : eraseKey k ((k', v') :: rest) = eraseKey k rest := by
        simp [eraseKey, List.filter_cons, hk]
      have h2 : lookupKey ((k', v') :: rest) j = lookupKey rest j := by
        have : k' ≠ j := fun he => h (hk ▸ he ▸ rfl)
        simp [lookupKey, this]
      rw [h1, h2, ih]
    · have h1 : eraseKey k ((k', v') :: rest) = (k', v') :: eraseKey k rest := by
        simp [eraseKey, List.filter_cons, hk]
      rw [h1]
      by_cases hj : k' = j
      · simp [lookupKey, hj]
      · simp only [lookupKey, if_neg hj]
        exact ih

theorem lookupKey_insert_self {α : Type} {m : List (GoStr × α)} {k : GoStr} {v : α} :
    lookupKey (insertKey m k v) k = some v := by
  simp [insertKey, lookupKey]

theorem lookupKey_insert_ne {α : Type} {m : List (GoStr × α)} {k j : GoStr} {v : α} (h : j ≠ k) :
    lookupKey (insertKey m k v) j = lookupKey m j := by
  have hkj : k ≠ j := fun hkj => h hkj.symm
  simp only [insertKey, lookupKey, if_neg hkj]
  exact lookupKey_eraseKey_ne h

theorem mem_keysOf_insertKey {α : Type} {m : List (GoStr × α)} {k j : GoStr} {v : α} :
    j ∈ keysOf (insertKey m k v) ↔ j = k ∨ j ∈ keysOf m := by
  rw [insertKey, keysOf_cons, List.mem_cons]
  constructor
  · rintro (rfl | h)
    · exact Or.inl rfl
    · exact Or.inr (mem_keysOf_eraseKey.mp h).1
  · rintro (rfl | h)
    · exact Or.inl rfl
    · by_cases hk : j = k
      · exact Or.inl hk
      · exact Or.inr (mem_keysOf_eraseKey.mpr ⟨h, hk⟩)

theorem nodup_keysOf_insertKey {α : Type} {m : List (GoStr × α)} {k : GoStr} {v : α}
    (h : (keysOf m).Nodup) : (keysOf (insertKey m k v)).Nodup := by
  have he : keysOf (insertKey m k v) = k :: keysOf (eraseKey k m) := rfl
  rw [he, keysOf_eraseKey]
  refine List.Nodup.cons ?_ (h.filter _)
  intro hk
  have := (List.mem_filter.mp hk).2
  simp at this

theorem mem_insertKey {α : Type} {m : List (GoStr × α)} {k : GoStr} {v : α} {e : GoStr × α}
    (h : e ∈ insertKey m k v) : e = (k, v) ∨ e ∈ m := by
  rcases List.mem_cons.mp h with h | h
  · exact Or.inl h
  · exact Or.inr (eraseKey_subset h)

/-! ### `isSuperset` lemmas -/

theorem isSupersetLoop_isSome {b : List GoStr} :
    ∀ (a : List GoStr) (bi : Nat), bi < b.length → (isSupersetLoop b a bi).isSome := by
  intro a
  induction a with
  | nil => intro bi _; simp [isSupersetLoop]
  | cons x rest ih =>
    intro bi hbi
    have hy : b[bi]? = some b[bi] := List.getElem?_eq_getElem hbi
    simp only [isSupersetLoop, hy]
    by_cases hx : x = b[bi]
    · by_cases hlast : bi + 1 = b.length
      · simp [hx, hlast]
      · have hlt : bi + 1 < b.length := Nat.lt_of_le_of_ne hbi hlast
        rw [if_pos hx, if_neg hlast]
        exact ih (bi + 1) hlt
    · rw [if_neg hx]
      exact ih bi hbi

theorem isSupersetLoop_true_iff {b : List GoStr} :
    ∀ (a : List GoStr) (bi : Nat), bi < b.length →
      (isSupersetLoop b a bi = some true ↔ List.Sublist (b.drop bi) a) := by
  intro a
  induction a with
  | nil =>
    intro bi hbi
    simp only [isSupersetLoop, List.sublist_nil]
    constructor
    · intro h; cases h
    · intro h
      have : b.length ≤ bi := List.drop_eq_nil_iff.mp h
      omega
  | cons x rest ih =>
    intro bi hbi
    have hy : b[bi]? = some b[bi] := List.getElem?_eq_getElem hbi
    have hdrop : b.drop bi = b[bi] :: b.drop (bi + 1) := List.drop_eq_getElem_cons hbi
    simp only [isSupersetLoop, hy]
    by_cases hx : x = b[bi]
    · by_cases hlast : bi + 1 = b.length
      · have hnil : b.drop (bi + 1) = [] := by rw [hlast]; exact List.drop_length b
        rw [if_pos hx, if_pos hlast, hdrop, hnil, hx]
        constructor
        · intro _
          exact List.cons_sublist_cons.mpr (List.nil_sublist rest)
        · intro _
          rfl
      · have hlt : bi + 1 < b.length := Nat.lt_of_le_of_ne hbi hlast
        rw [if_pos hx, if_neg hlast, ih (bi + 1) hlt, hdrop, ← hx]
        exact List.cons_sublist_cons.symm
    · rw [if_neg hx, ih bi hbi, hdrop]
      constructor
      · intro h
        exact List.Sublist.cons x h
      · intro h
        cases h with
        | cons _ h' => exact h'
        | cons₂ _ h' => exact absurd rfl hx

/-! ### Registry and walker invariant lemmas -/

theorem WFReg_lookup {ps : List (GoStr × FlatPackage)} {k : GoStr} {pkg : FlatPackage}
    (hwf : WFReg ps) (h : lookupKey ps k = some pkg) : pkg.ID = k :=
  hwf (k, pkg) (lookupKey_mem h)

theorem AccGood_keys_subset {ps : List (GoStr × FlatPackage)} {acc : Visited}
    (h : AccGood ps acc) : ∀ k ∈ keysOf acc, k ∈ keysOf ps := by
  intro k hk
  obtain ⟨v, hv⟩ := mem_keysOf.mp hk
  exact mem_keys_of_lookupKey (h (k, v) hv).1

theorem AccGood_insert {ps : List (GoStr × FlatPackage)} {acc : Visited} {k : GoStr}
    {pkg : FlatPackage} (h : AccGood ps acc) (hl : lookupKey ps k = some pkg)
    (hid : pkg.ID = k) : AccGood ps (insertKey acc k pkg) := by
  intro e he
  rcases mem_insertKey he with rfl | he'
  · exact ⟨hl, hid⟩
  · exact h e he'

theorem NodeClosed_mono {ps : List (GoStr × FlatPackage)} {acc acc' : Visited} {k : GoStr}
    (h : NodeClosed ps acc k) (hsub : ∀ j, j ∈ keysOf acc → j ∈ keysOf acc') :
    NodeClosed ps acc' k := by
  intro pkg hl v hv hps
  exact hsub v (h pkg hl v hv hps)

theorem Reaches_mem_keys {ps : List (GoStr × FlatPackage)} {root k : GoStr}
    (h : Reaches ps root k) : root ∈ keysOf ps := by
  induction h with
  | self h => exact h
  | step _ _ _ _ ih => exact ih

theorem Reaches_target_mem {ps : List (GoStr × FlatPackage)} {root k : GoStr}
    (h : Reaches ps root k) : k ∈ keysOf ps := by
  cases h with
  | self h => exact h
  | step _ _ _ hv => exact hv

theorem Reaches_trans {ps : List (GoStr × FlatPackage)} {a b c : GoStr}
    (h1 : Reaches ps a b) (h2 : Reaches ps b c) : Reaches ps a c := by
  induction h2 with
  | self _ => exact h1
  | step _ hl hv hm ih => exact Reaches.step ih hl hv hm

/-! ### Walker postcondition (soundness, closedness, monotonicity) -/

theorem walkList_post {ps : List (GoStr × FlatPackage)} {w : Visited → GoStr → Option Visited}
    (hw : WProp ps w) :
    ∀ (vs : List GoStr) (acc acc' : Visited), AccGood ps acc →
      walkList w acc vs = some acc' → ListPost ps vs acc acc' := by
  intro vs
  induction vs with
  | nil =>
    intro acc acc' hg h
    have hacc : acc = acc' := by
      simpa [walkList] using h
    subst hacc
    refine ⟨hg, fun k hk => hk, fun k hk => Or.inl hk, ?_, ?_, id⟩
    · intro v hv
      exact absurd hv (List.not_mem_nil v)
    · intro k hk hnk
      exact absurd hk hnk
  | cons v rest ih =>
    intro acc acc' hg h
    by_cases hv : v ∈ keysOf acc
    · rw [walkList, if_pos hv] at h
      obtain ⟨hg', hmono, hnew, hvis, hclosed, hnd⟩ := ih acc acc' hg h
      refine ⟨hg', hmono, ?_, ?_, hclosed, hnd⟩
      · intro k hk
        rcases hnew k hk with hk' | ⟨v', hv', hr⟩
        · exact Or.inl hk'
        · exact Or.inr ⟨v', List.mem_cons_of_mem _ hv', hr⟩
      · intro v' hv' hps
        rcases List.mem_cons.mp hv' with rfl | hv''
        · exact hmono v' hv
        · exact hvis v' hv'' hps
    · rw [walkList, if_neg hv] at h
      cases hw2 : w acc v with
      | none => rw [hw2] at h; cases h
      | some acc2 =>
        rw [hw2] at h
        obtain ⟨hg2, hmono2, hnew2, hvis2, hclosed2, hnd2⟩ := hw acc v acc2 hg hw2
        obtain ⟨hg', hmono, hnew, hvis, hclosed, hnd⟩ := ih acc2 acc' hg2 h
        refine ⟨hg', fun k hk => hmono k (hmono2 k hk), ?_, ?_, ?_, fun h0 => hnd (hnd2 h0)⟩
        · intro k hk
          rcases hnew k hk with hk2 | ⟨v', hv', hr⟩
          · rcases hnew2 k hk2 with hk0 | hr
            · exact Or.inl hk0
            · exact Or.inr ⟨v, List.mem_cons_self _ _, hr⟩
          · exact Or.inr ⟨v', List.mem_cons_of_mem _ hv', hr⟩
        · intro v' hv' hps
          rcases List.mem_cons.mp hv' with rfl | hv''
          · exact hmono v' (hvis2 hps)
          · exact hvis v' hv'' hps
        · intro k hk hnk
          by_cases hk2 : k ∈ keysOf acc2
          · exact NodeClosed_mono (hclosed2 k hk2 hnk) hmono
          · exact hclosed k hk hk2
  
theorem walkF_post {ps : List (GoStr × FlatPackage)} (hwf : WFReg ps) :
    ∀ f, WProp ps (walkF ps f) := by
  intro f
  induction f with
  | zero =>
    intro acc root acc' _ h
    simp [walkF] at h
  | succ f ih =>
    intro acc root acc' hg h
    cases hl : lookupKey ps root with
    | none =>
      simp only [walkF, hl] at h
      have hacc : acc = acc' := Option.some.inj h
      subst hacc
      refine ⟨hg, fun k hk => hk, fun k hk => Or.inl hk, ?_, ?_, id⟩
      · intro hroot
        obtain ⟨v, hv⟩ := lookupKey_isSome_of_mem_keys hroot
        rw [hl] at hv
        simp at hv
      · intro k hk hnk
        exact absurd hk hnk
    | some pkg =>
      have hid : pkg.ID = root := WFReg_lookup hwf hl
      simp only [walkF, hl] at h
      rw [hid] at h
      have hrootmem : root ∈ keysOf ps := mem_keys_of_lookupKey hl
      have hg1 : AccGood ps (insertKey acc root pkg) := AccGood_insert hg hl hid
      obtain ⟨hg', hmono, hnew, hvis, hclosed, hnd⟩ :=
        walkList_post ih (importTargets pkg) _ acc' hg1 h
      have hins : ∀ k, k ∈ keysOf acc → k ∈ keysOf (insertKey acc root pkg) :=
        fun k hk => mem_keysOf_insertKey.mpr (Or.inr hk)
      refine ⟨hg', fun k hk => hmono k (hins k hk), ?_, ?_, ?_, ?_⟩
      · intro k hk
        rcases hnew k hk with hk1 | ⟨v, hvt, hr⟩
        · rcases mem_keysOf_insertKey.mp hk1 with rfl | hk0
          · exact Or.inr (Reaches.self k hrootmem)
          · exact Or.inl hk0
        · have hvmem : v ∈ keysOf ps := Reaches_mem_keys hr
          have hrv : Reaches ps root v :=
            Reaches.step (Reaches.self root hrootmem) hl hvt hvmem
          exact Or.inr (Reaches_trans hrv hr)
      · intro _
        exact hmono root (mem_keysOf_insertKey.mpr (Or.inl rfl))
      · intro k hk hnk
        by_cases hk1 : k ∈ keysOf (insertKey acc root pkg)
        · rcases mem_keysOf_insertKey.mp hk1 with rfl | hk0
          · intro pkg2 hl2 v hvt hvmem
            have hpkg : pkg2 = pkg := by
              rw [hl] at hl2
              exact (Option.some.injEq _ _ ▸ hl2).symm ▸ rfl
            subst hpkg
            exact hvis v hvt hvmem
          · exact absurd hk0 hnk
        · exact hclosed k hk hk1
      · intro h0
        exact hnd (nodup_keysOf_insertKey h0)

/-! ### Counting lemmas for the termination measure -/

theorem length_filter_le_of_imp {α : Type} {p q : α → Bool} :
    ∀ (l : List α), (∀ x, q x = true → p x = true) →
      (l.filter q).length ≤ (l.filter p).length := by
  intro l himp
  induction l with
  | nil => exact Nat.le_refl _
  | cons a t ih =>
    cases hq : q a with
    | true =>
      have hp : p a = true := himp a hq
      simp [List.filter_cons, hq, hp]
      exact ih
    | false =>
      cases hp : p a with
      | true =>
        simp [List.filter_cons, hq, hp]
        exact Nat.le_trans ih (Nat.le_succ _)
      | false =>
        simp [List.filter_cons, hq, hp]
        exact ih

theorem length_filter_lt_of_mem {α : Type} {p q : α → Bool} {x : α} :
    ∀ (l : List α), x ∈ l → q x = false → p x = true →
      (∀ y, q y = true → p y = true) →
      (l.filter q).length < (l.filter p).length := by
  intro l
  induction l with
  | nil => intro h; exact absurd h (List.not_mem_nil x)
  | cons a t ih =>
    intro hmem hq hp himp
    rcases List.mem_cons.mp hmem with rfl | hmem'
    · simp [List.filter_cons, hq, hp]
      exact Nat.lt_succ_of_le (length_filter_le_of_imp t himp)
    · cases hqa : q a with
      | true =>
        have hpa : p a = true := himp a hqa
        simp [List.filter_cons, hqa, hpa]
        exact ih hmem' hq hp himp
      | false =>
        cases hpa : p a with
        | true =>
          simp [List.filter_cons, hqa, hpa]
          exact Nat.lt_succ_of_lt (ih hmem' hq hp himp)
        | false =>
          simp [List.filter_cons, hqa, hpa]
          exact ih hmem' hq hp himp

theorem length_filter_lt_length_of_mem {α : Type} {q : α → Bool} {x : α} :
    ∀ (l : List α), x ∈ l → q x = false → (l.filter q).length < l.length := by
  intro l
  induction l with
  | nil => intro h; exact absurd h (List.not_mem_nil x)
  | cons a t ih =>
    intro hmem hq
    rcases List.mem_cons.mp hmem with rfl | hmem'
    · simp [List.filter_cons, hq]
      exact Nat.lt_succ_of_le (List.length_filter_le _ _)
    · cases hqa : q a with
      | true =>
        simp [List.filter_cons, hqa]
        exact ih hmem' hq
      | false =>
        simp [List.filter_cons, hqa]
        exact Nat.lt_succ_of_lt (ih hmem' hq)

theorem missingCount_mono {ps : List (GoStr × FlatPackage)} {acc acc2 : Visited}
    (hsub : ∀ k, k ∈ keysOf acc → k ∈ keysOf acc2) :
    missingCount ps acc2 ≤ missingCount ps acc := by
  refine length_filter_le_of_imp _ ?_
  intro x hx
  simp only [decide_eq_true_eq] at hx ⊢
  intro hmem
  exact hx (hsub x hmem)

theorem missingCount_insert_lt {ps : List (GoStr × FlatPackage)} {acc : Visited} {root : GoStr}
    {pkg : FlatPackage} (hmem : root ∈ keysOf ps) (hnot : root ∉ keysOf acc) :
    missingCount ps (insertKey acc root pkg) < missingCount ps acc := by
  refine length_filter_lt_of_mem _ hmem ?_ ?_ ?_
  · simp only [decide_eq_false_iff_not, not_not]
    exact mem_keysOf_insertKey.mpr (Or.inl rfl)
  · simp only [decide_eq_true_eq]
    exact hnot
  · intro y hy
    simp only [decide_eq_true_eq] at hy ⊢
    intro hmem'
    exact hy (mem_keysOf_insertKey.mpr (Or.inr hmem'))

theorem missingCount_lt_of_mem {ps : List (GoStr × FlatPackage)} {acc : Visited} {root : GoStr}
    (hmem : root ∈ keysOf ps) (hin : root ∈ keysOf acc) :
    missingCount ps acc < (keysOf ps).length := by
  refine length_filter_lt_length_of_mem _ hmem ?_
  simp only [decide_eq_false_iff_not, not_not]
  exact hin

theorem missingCount_le {ps : List (GoStr × FlatPackage)} {acc : Visited} :
    missingCount ps acc ≤ ps.length := by
  have h1 : missingCount ps acc ≤ (keysOf ps).length := List.length_filter_le _ _
  have h2 : (keysOf ps).length = ps.length := List.length_map _ _
  omega

/-! ### Walker termination (fuel adequacy) -/

theorem walkList_isSome {ps : List (GoStr × FlatPackage)} {w : Visited → GoStr → Option Visited}
    {f : Nat}
    (hw : ∀ acc root, AccGood ps acc → root ∉ keysOf acc → missingCount ps acc < f →
      ∃ acc', w acc root = some acc')
    (hwp : WProp ps w) :
    ∀ (vs : List GoStr) (acc : Visited), AccGood ps acc → missingCount ps acc < f →
      ∃ acc', walkList w acc vs = some acc' := by
  intro vs
  induction vs with
  | nil => intro acc _ _; exact ⟨acc, rfl⟩
  | cons v rest ih =>
    intro acc hg hm
    by_cases hv : v ∈ keysOf acc
    · obtain ⟨acc', h'⟩ := ih acc hg hm
      exact ⟨acc', by rw [walkList, if_pos hv]; exact h'⟩
    · obtain ⟨acc2, h2⟩ := hw acc v hg hv hm
      obtain ⟨hg2, hmono2, _, _, _, _⟩ := hwp acc v acc2 hg h2
      have hm2 : missingCount ps acc2 < f :=
        Nat.lt_of_le_of_lt (missingCount_mono hmono2) hm
      obtain ⟨acc', h'⟩ := ih acc2 hg2 hm2
      exact ⟨acc', by rw [walkList, if_neg hv, h2]; exact h'⟩

theorem walkF_isSome {ps : List (GoStr × FlatPackage)} (hwf : WFReg ps) :
    ∀ (f : Nat) (acc : Visited) (root : GoStr), AccGood ps acc →
      missingCount ps acc + (if root ∈ keysOf acc then 1 else 0) < f →
      ∃ acc', walkF ps f acc root = some acc' := by
  intro f
  induction f with
  | zero =>
    intro acc root _ hb
    exact absurd hb (Nat.not_lt_zero _)
  | succ f ih =>
    intro acc root hg hb
    cases hl : lookupKey ps root with
    | none => exact ⟨acc, by simp [walkF, hl]⟩
    | some pkg =>
      have hid : pkg.ID = root := WFReg_lookup hwf hl
      have hrootmem : root ∈ keysOf ps := mem_keys_of_lookupKey hl
      have hg1 : AccGood ps (insertKey acc root pkg) := AccGood_insert hg hl hid
      have hm1 : missingCount ps (insertKey acc root pkg) < f := by
        by_cases hin : root ∈ keysOf acc
        · have hle : missingCount ps (insertKey acc root pkg) ≤ missingCount ps acc :=
            missingCount_mono (fun k hk => mem_keysOf_insertKey.mpr (Or.inr hk))
          rw [if_pos hin] at hb
          omega
        · have hlt : missingCount ps (insertKey acc root pkg) < missingCount ps acc :=
            missingCount_insert_lt hrootmem hin
          rw [if_neg hin] at hb
          omega
      obtain ⟨acc', h'⟩ :=
        walkList_isSome
          (fun acc2 r hg2 hr hm2 => ih acc2 r hg2 (by rw [if_neg hr]; omega))
          (walkF_post hwf f) (importTargets pkg) (insertKey acc root pkg) hg1 hm1
      refine ⟨acc', ?_⟩
      simp only [walkF, hl]
      rw [hid]
      exact h'

/-! ### Walker completeness -/

theorem walk_complete {ps : List (GoStr × FlatPackage)} {root : GoStr} {acc acc' : Visited}
    (hpost : WalkPost ps root acc acc') (hca : ClosedAll ps acc) :
    (∀ k, Reaches ps root k → k ∈ keysOf acc') ∧ ClosedAll ps acc' := by
  obtain ⟨hg, hmono, hnew, hvis, hclosed, _⟩ := hpost
  constructor
  · intro k hr
    induction hr with
    | self h => exact hvis h
    | step hr hl hv hm ih =>
      rename_i k' v pkg
      by_cases hk0 : k' ∈ keysOf acc
      · exact hmono v (hca k' hk0 pkg hl v hv hm)
      · exact hclosed k' ih hk0 pkg hl v hv hm
  · intro k hk
    by_cases hk0 : k ∈ keysOf acc
    · exact NodeClosed_mono (hca k hk0) hmono
    · exact hclosed k hk hk0

/-! ### The per-root walk loop -/

theorem walkRoots_spec {ps : List (GoStr × FlatPackage)} (hwf : WFReg ps) :
    ∀ (roots : List GoStr) (acc : Visited), AccGood ps acc → (keysOf acc).Nodup →
      ClosedAll ps acc →
      ∃ acc', walkRoots ps acc roots = some acc' ∧ AccGood ps acc' ∧ (keysOf acc').Nodup ∧
        ClosedAll ps acc' ∧
        (∀ k, k ∈ keysOf acc' ↔ (k ∈ keysOf acc ∨ ∃ r ∈ roots, Reaches ps r k)) := by
  intro roots
  induction roots with
  | nil =>
    intro acc hg hnd hca
    refine ⟨acc, rfl, hg, hnd, hca, fun k => ⟨Or.inl, ?_⟩⟩
    rintro (h | ⟨r, hr, _⟩)
    · exact h
    · exact absurd hr (List.not_mem_nil r)
  | cons r rest ih =>
    intro acc hg hnd hca
    have hb : missingCount ps acc + (if r ∈ keysOf acc then 1 else 0) < ps.length + 1 := by
      by_cases hin : r ∈ keysOf acc
      · have h1 : missingCount ps acc < (keysOf ps).length :=
          missingCount_lt_of_mem (AccGood_keys_subset hg r hin) hin
        have h2 : (keysOf ps).length = ps.length := List.length_map _ _
        rw [if_pos hin]
        omega
      · have h1 : missingCount ps acc ≤ ps.length := missingCount_le
        rw [if_neg hin]
        omega
    obtain ⟨acc2, h2⟩ := walkF_isSome hwf (ps.length + 1) acc r hg hb
    have hpost := walkF_post hwf (ps.length + 1) acc r acc2 hg h2
    obtain ⟨hreach, hca2⟩ := walk_complete hpost hca
    obtain ⟨hg2, hmono2, hnew2, hvis2, _, hnd2⟩ := hpost
    obtain ⟨acc', h', hg', hnd', hca', hiff⟩ := ih acc2 hg2 (hnd2 hnd) hca2
    refine ⟨acc', ?_, hg', hnd', hca', ?_⟩
    · rw [walkRoots, h2]
      exact h'
    · intro k
      rw [hiff k]
      constructor
      · rintro (hk2 | ⟨r', hr', hrr⟩)
        · rcases hnew2 k hk2 with hk0 | hr0
          · exact Or.inl hk0
          · exact Or.inr ⟨r, List.mem_cons_self _ _, hr0⟩
        · exact Or.inr ⟨r', List.mem_cons_of_mem _ hr', hrr⟩
      · rintro (hk0 | ⟨r', hr', hrr⟩)
        · exact Or.inl (hmono2 k hk0)
        · rcases List.mem_cons.mp hr' with rfl | hr''
          · exact Or.inl (hreach k hrr)
          · exact Or.inr ⟨r', hr'', hrr⟩

/-! ### Top-level `isSuperset` characterizations (shared helpers) -/

theorem isSuperset_true_iff {a b : List GoStr} (hb : b ≠ []) :
    isSuperset a b = some true ↔ List.Sublist b a := by
  have hbpos : 0 < b.length := List.length_pos.mpr hb
  unfold isSuperset
  by_cases hlen : a.length < b.length
  · rw [if_pos hlen]
    constructor
    · intro h; cases h
    · intro h
      have := h.length_le
      omega
  · rw [if_neg hlen]
    rw [isSupersetLoop_true_iff a 0 hbpos, List.drop_zero]

theorem isSuperset_empty_b (a : List GoStr) :
    isSuperset a [] = if a = [] then some false else none := by
  cases a with
  | nil => rfl
  | cons x rest => rfl

theorem isSuperset_isSome {a b : List GoStr} (hb : b ≠ []) :
    ∃ r, isSuperset a b = some r := by
  have hbpos : 0 < b.length := List.length_pos.mpr hb
  unfold isSuperset
  by_cases hlen : a.length < b.length
  · exact ⟨false, by rw [if_pos hlen]⟩
  · rw [if_neg hlen]
    have := isSupersetLoop_isSome (b := b) a 0 hbpos
    cases hr : isSupersetLoop b a 0 with
    | none => rw [hr] at this; cases this
    | some r => exact ⟨r, rfl⟩

/-- Claim C1 (corrected/amended): `isSuperset(a, b)` returns false
whenever `len(b) > len(a)`; for nonempty `b` it returns true iff `b` is
an order-preserving subsequence of `a`; for empty `b` it does NOT return
true — it returns false when `a` is also empty and panics (index out of
range on `b[0]`, modelled as `none`) when `a` is nonempty. -/
theorem superset_spec (a b : List GoStr) :
    (b.length > a.length → isSuperset a b = some false) ∧
    (b ≠ [] → (isSuperset a b = some true ↔ List.Sublist b a)) ∧
    (b = [] → isSuperset a b = if a = [] then some false else none) := by
  refine ⟨?_, fun hb => isSuperset_true_iff hb, ?_⟩
  · intro hlen
    unfold isSuperset
    rw [if_pos hlen]
  · intro hb
    subst hb
    exact isSuperset_empty_b a

/-- Claim C1 counterexample: the empty sequence is a subsequence of the
empty sequence, yet `isSuperset([], [])` returns false rather than true;
and `isSuperset(["x"], [])` panics (index out of range, modelled as
`none`) rather than returning true. -/
theorem superset_claim_counterexample :
    isSuperset [] [] = some false ∧ List.Sublist ([] : List GoStr) [] ∧
    isSuperset ["x".toList] [] = none := by
  refine ⟨rfl, List.nil_sublist _, rfl⟩

theorem superset_spec_witness :
    (["a".toList, "c".toList] : List GoStr) ≠ [] ∧
    (isSuperset ["a".toList, "b".toList, "c".toList] ["a".toList, "c".toList] = some true ↔
      List.Sublist ["a".toList, "c".toList] ["a".toList, "b".toList, "c".toList]) :=
  ⟨by decide, (superset_spec ["a".toList, "b".toList, "c".toList] ["a".toList, "c".toList]).2.1
    (by decide)⟩

/-- Claim C4 (confirmed): `canonicalizeId` strips a recognized
standard-library prefix from `id`; otherwise it returns `id` unchanged
when the importing node is standard-library-flagged, and the declared
`path` otherwise. -/
theorem canonicalizeId_spec (path id : GoStr) (pkg : FlatPackage) :
    (∀ rest, id = stdlibPrefix ++ rest → canonicalizeId path id pkg = rest) ∧
    (¬ List.IsPrefix stdlibPrefix id → pkg.IsStdlib = true → canonicalizeId path id pkg = id) ∧
    (¬ List.IsPrefix stdlibPrefix id → pkg.IsStdlib = false → canonicalizeId path id pkg = path) := by
  refine ⟨?_, ?_, ?_⟩
  · rintro rest rfl
    have hpre : stdlibPrefix.isPrefixOf (stdlibPrefix ++ rest) = true :=
      List.isPrefixOf_iff_prefix.mpr (List.prefix_append _ _)
    simp only [canonicalizeId, hpre, if_true]
    exact List.drop_left _ _
  · intro hnp hstd
    have hpre : stdlibPrefix.isPrefixOf id = false := by
      cases hp : stdlibPrefix.isPrefixOf id with
      | true => exact absurd (List.isPrefixOf_iff_prefix.mp hp) hnp
      | false => rfl
    simp only [canonicalizeId, hpre, Bool.false_eq_true, if_false, hstd, if_true]
  · intro hnp hstd
    have hpre : stdlibPrefix.isPrefixOf id = false := by
      cases hp : stdlibPrefix.isPrefixOf id with
      | true => exact absurd (List.isPrefixOf_iff_prefix.mp hp) hnp
      | false => rfl
    simp only [canonicalizeId, hpre, Bool.false_eq_true, if_false, hstd]

theorem canonicalizeId_spec_witness :
    canonicalizeId "p".toList "@@io_bazel_rules_go//stdlib:fmt".toList pkgA = "fmt".toList ∧
    canonicalizeId "example.com/foo".toList "X".toList pkgA = "example.com/foo".toList ∧
    canonicalizeId "p".toList "X".toList fmtPkg = "X".toList :=
  ⟨(canonicalizeId_spec "p".toList "@@io_bazel_rules_go//stdlib:fmt".toList pkgA).1
      "fmt".toList (by decide),
   (canonicalizeId_spec "example.com/foo".toList "X".toList pkgA).2.2 (by decide) (by decide),
   (canonicalizeId_spec "p".toList "X".toList fmtPkg).2.1 (by decide) (by decide)⟩

/-- Claim C3 (corrected/amended): when `Update` finds an existing node at
the incoming node's path, it replaces the existing file list with the
incoming one exactly when `isSuperset(incoming, existing)` returns true —
which, for a nonempty existing list, means the existing list is an
order-preserving subsequence of the incoming one; when the existing list
is empty and the incoming one nonempty, the `isSuperset` call panics
(modelled as `none`) instead of replacing. In every non-panicking case
all fields of the existing node other than the file list, every other
registry entry, and the standard-library index are unchanged. -/
theorem update_merge_spec (pr : PackageRegistry) (pkg existing : FlatPackage)
    (hex : lookupKey pr.packages pkg.PkgPath = some existing) :
    (isSuperset pkg.GoFiles existing.GoFiles = some true →
      pr.Update pkg = some (PackageRegistry.mk
        (insertKey pr.packages pkg.PkgPath ({ existing with GoFiles := pkg.GoFiles }))
        pr.stdlib)) ∧
    (isSuperset pkg.GoFiles existing.GoFiles = some false → pr.Update pkg = some pr) ∧
    (existing.GoFiles ≠ [] →
      (isSuperset pkg.GoFiles existing.GoFiles = some true ↔
        List.Sublist existing.GoFiles pkg.GoFiles)) ∧
    (existing.GoFiles = [] → pkg.GoFiles ≠ [] → pr.Update pkg = none) ∧
    (∀ pr', pr.Update pkg = some pr' →
      pr'.stdlib = pr.stdlib ∧
      (∀ k, k ≠ pkg.PkgPath → lookupKey pr'.packages k = lookupKey pr.packages k) ∧
      ∃ gf, lookupKey pr'.packages pkg.PkgPath = some { existing with GoFiles := gf }) := by
  refine ⟨?_, ?_, fun hne => isSuperset_true_iff hne, ?_, ?_⟩
  · intro hsup
    simp only [PackageRegistry.Update, hex, hsup]
  · intro hsup
    simp only [PackageRegistry.Update, hex, hsup]
  · intro hempty hne
    have hnone : isSuperset pkg.GoFiles existing.GoFiles = none := by
      rw [hempty, isSuperset_empty_b, if_neg hne]
    simp only [PackageRegistry.Update, hex, hnone]
  · intro pr' h
    simp only [PackageRegistry.Update, hex] at h
    cases hsup : isSuperset pkg.GoFiles existing.GoFiles with
    | none => rw [hsup] at h; cases h
    | some r =>
      cases r with
      | true =>
        rw [hsup] at h
        have hpr' : pr' = PackageRegistry.mk
            (insertKey pr.packages pkg.PkgPath ({ existing with GoFiles := pkg.GoFiles }))
            pr.stdlib :=
          (Option.some.inj h).symm
        subst hpr'
        refine ⟨rfl, ?_, ⟨pkg.GoFiles, lookupKey_insert_self⟩⟩
        intro k hk
        exact lookupKey_insert_ne hk
      | false =>
        rw [hsup] at h
        have hpr' : pr' = pr := (Option.some.inj h).symm
        subst hpr'
        exact ⟨rfl, fun k _ => rfl, ⟨existing.GoFiles, hex⟩⟩

/-- Claim C3 counterexample: with an existing node whose file list is
empty and an incoming duplicate carrying one file, the incoming list is
an order-preserving superset of the existing one, yet `Update` does not
replace the file list — the `isSuperset` call panics (index out of
range, modelled as `none`). -/
theorem update_merge_counterexample :
    List.Sublist exC3.GoFiles incC3.GoFiles ∧ prC3.Update incC3 = none :=
  ⟨List.nil_sublist _, by decide⟩

theorem update_merge_spec_witness :
    lookupKey prMerge.packages incMerge.PkgPath = some exMerge ∧
    prMerge.Update incMerge = some (PackageRegistry.mk
      (insertKey prMerge.packages incMerge.PkgPath ({ exMerge with GoFiles := incMerge.GoFiles }))
      prMerge.stdlib) ∧
    (isSuperset incMerge.GoFiles exMerge.GoFiles = some true ↔
      List.Sublist exMerge.GoFiles incMerge.GoFiles) := by
  refine ⟨by decide, ?_, ?_⟩
  · exact (update_merge_spec prMerge incMerge exMerge (by decide)).1 (by decide)
  · exact (update_merge_spec prMerge incMerge exMerge (by decide)).2.2.1 (by decide)

/-! ### Registration identity (claim C2) -/

theorem rewritePackage_ID (pkg : FlatPackage) : (rewritePackage pkg).ID = pkg.PkgPath := rfl

theorem rewritePackage_PkgPath (pkg : FlatPackage) :
    (rewritePackage pkg).PkgPath = pkg.PkgPath := rfl

theorem rewritePackage_Standard (pkg : FlatPackage) :
    (rewritePackage pkg).Standard = pkg.Standard := rfl

theorem add1_WF {pr : PackageRegistry} {pkg : FlatPackage} (h : WFReg pr.packages) :
    WFReg (add1 pr pkg).packages := by
  intro e he
  have he2 : e ∈ insertKey pr.packages (rewritePackage pkg).PkgPath (rewritePackage pkg) := he
  rcases mem_insertKey he2 with rfl | he'
  · rfl
  · exact h e he'

theorem Add_WF : ∀ (pkgs : List FlatPackage) (pr : PackageRegistry),
    WFReg pr.packages → WFReg (pr.Add pkgs).packages := by
  intro pkgs
  induction pkgs with
  | nil => intro pr h; exact h
  | cons p rest ih => intro pr h; exact ih (add1 pr p) (add1_WF h)

/-- Claim C2 (corrected/amended): nodes registered through `Add` always
end up with identity equal to logical path (`Add` preserves and
establishes the invariant), but `Update`'s insert-as-new branch stores
the incoming node verbatim, without canonicalization — so after an
`Update` insert the invariant holds only if the incoming node already
carried identity = path; `Update`'s merge branch keeps the existing
node's identity. -/
theorem update_identity_spec :
    (∀ (pr : PackageRegistry) (pkgs : List FlatPackage),
      WFReg pr.packages → WFReg (pr.Add pkgs).packages) ∧
    (∀ (pr : PackageRegistry) (pkg : FlatPackage),
      lookupKey pr.packages pkg.PkgPath = none →
      pr.Update pkg =
        some (PackageRegistry.mk (insertKey pr.packages pkg.PkgPath pkg) pr.stdlib)) ∧
    (∀ (pr : PackageRegistry) (pkg : FlatPackage) (pr' : PackageRegistry),
      WFReg pr.packages → pkg.ID = pkg.PkgPath → pr.Update pkg = some pr' →
      WFReg pr'.packages) := by
  refine ⟨fun pr pkgs h => Add_WF pkgs pr h, ?_, ?_⟩
  · intro pr pkg h
    simp only [PackageRegistry.Update, h]
  · intro pr pkg pr' hwf hid h
    cases hl : lookupKey pr.packages pkg.PkgPath with
    | none =>
      simp only [PackageRegistry.Update, hl] at h
      have hpr' : pr' = PackageRegistry.mk (insertKey pr.packages pkg.PkgPath pkg) pr.stdlib :=
        (Option.some.inj h).symm
      subst hpr'
      intro e he
      rcases mem_insertKey he with rfl | he'
      · exact hid
      · exact hwf e he'
    | some existing =>
      simp only [PackageRegistry.Update, hl] at h
      have hexid : existing.ID = pkg.PkgPath := WFReg_lookup hwf hl
      cases hsup : isSuperset pkg.GoFiles existing.GoFiles with
      | none => rw [hsup] at h; cases h
      | some r =>
        cases r with
        | true =>
          rw [hsup] at h
          have hpr' : pr' = PackageRegistry.mk
              (insertKey pr.packages pkg.PkgPath ({ existing with GoFiles := pkg.GoFiles }))
              pr.stdlib :=
            (Option.some.inj h).symm
          subst hpr'
          intro e he
          rcases mem_insertKey he with rfl | he'
          · exact hexid
          · exact hwf e he'
        | false =>
          rw [hsup] at h
          have hpr' : pr' = pr := (Option.some.inj h).symm
          subst hpr'
          exact hwf

/-- Claim C2 counterexample: `Update` on an empty registry inserts a node
whose externally supplied identity `"x"` differs from its logical path
`"p"`; the stored node keeps identity `"x"`, so the stored node's
identity is not its logical path. -/
theorem update_identity_counterexample :
    emptyRegistry.Update badPkg = some (PackageRegistry.mk [("p".toList, badPkg)] []) ∧
    lookupKey [("p".toList, badPkg)] "p".toList = some badPkg ∧
    badPkg.ID ≠ badPkg.PkgPath := ⟨by decide, by decide, by decide⟩

theorem update_identity_spec_witness :
    WFReg emptyRegistry.packages ∧ WFReg (emptyRegistry.Add [pkgA]).packages :=
  ⟨by decide, update_identity_spec.1 emptyRegistry [pkgA] (by decide)⟩

/-! ### Walk on cyclic graphs (claim C5) -/

theorem AccGood_nil (ps : List (GoStr × FlatPackage)) : AccGood ps [] :=
  fun e he => absurd he (List.not_mem_nil e)

theorem ClosedAll_nil (ps : List (GoStr × FlatPackage)) : ClosedAll ps [] := by
  intro k hk
  simp [keysOf] at hk

/-- Claim C5 (confirmed): on any registry in which every stored node's
identity equals its key (which `Add` guarantees) — in particular on
registries whose import graph contains cycles such as `a → b → a` — the
walk from any root terminates (fuel `|registry| + 1` never runs out,
modelled by the `some` result), and the visited set contains each
reachable node exactly once: its keys are duplicate-free and are exactly
the reachable keys. The `visited`-membership check before recursing is
what makes the fuel bound hold. -/
theorem walk_cycle_spec (ps : List (GoStr × FlatPackage)) (root : GoStr) (hwf : WFReg ps) :
    ∃ acc', walkF ps (ps.length + 1) [] root = some acc' ∧ (keysOf acc').Nodup ∧
      ∀ k, k ∈ keysOf acc' ↔ Reaches ps root k := by
  have hnil : root ∉ keysOf ([] : Visited) := by simp [keysOf]
  have hb : missingCount ps [] + (if root ∈ keysOf ([] : Visited) then 1 else 0) <
      ps.length + 1 := by
    have h1 : missingCount ps [] ≤ ps.length := missingCount_le
    rw [if_neg hnil]
    omega
  obtain ⟨acc', h⟩ := walkF_isSome hwf (ps.length + 1) [] root (AccGood_nil ps) hb
  have hpost := walkF_post hwf (ps.length + 1) [] root acc' (AccGood_nil ps) h
  obtain ⟨hreach, _⟩ := walk_complete hpost (ClosedAll_nil ps)
  obtain ⟨_, _, hnew, _, _, hnd⟩ := hpost
  refine ⟨acc', h, hnd List.nodup_nil, fun k => ⟨?_, hreach k⟩⟩
  intro hk
  rcases hnew k hk with h0 | h1
  · exact absurd h0 (by simp [keysOf])
  · exact h1

theorem walk_cycle_spec_witness :
    ∃ acc', walkF cyclicRegistry.packages (cyclicRegistry.packages.length + 1) [] "a".toList =
        some acc' ∧ (keysOf acc').Nodup ∧
      ∀ k, k ∈ keysOf acc' ↔ Reaches cyclicRegistry.packages "a".toList k :=
  walk_cycle_spec cyclicRegistry.packages "a".toList (by decide)

/-! ### Missing roots are soft failures (claim C6) -/

/-- Claim C6 (confirmed): when the root is not in the registry, `walk`
returns without error and without touching the shared visited set (the
condition is only logged), and a `Query` whose first root is missing
returns exactly the result of querying the remaining roots, with the
missing root still echoed in the returned root list. -/
theorem walk_missing_root_spec :
    (∀ (ps : List (GoStr × FlatPackage)) (f : Nat) (acc : Visited) (root : GoStr),
      lookupKey ps root = none → walkF ps (f + 1) acc root = some acc) ∧
    (∀ (pr : PackageRegistry) (root : GoStr) (rest : List GoStr),
      lookupKey pr.packages root = none →
      pr.Query (root :: rest) = (pr.Query rest).map (fun x => (root :: x.1, x.2))) := by
  have h1 : ∀ (ps : List (GoStr × FlatPackage)) (f : Nat) (acc : Visited) (root : GoStr),
      lookupKey ps root = none → walkF ps (f + 1) acc root = some acc := by
    intro ps f acc root h
    simp [walkF, h]
  refine ⟨h1, ?_⟩
  intro pr root rest h
  have h2 : walkRoots pr.packages [] (root :: rest) = walkRoots pr.packages [] rest := by
    simp only [walkRoots, h1 pr.packages pr.packages.length [] root h]
  cases hw : walkRoots pr.packages [] rest with
  | none => simp [PackageRegistry.Query, h2, hw]
  | some acc => simp [PackageRegistry.Query, h2, hw]

theorem walk_missing_root_spec_witness :
    walkF cyclicRegistry.packages 1 [] "zzz".toList = some [] ∧
    cyclicRegistry.Query ["zzz".toList, "a".toList] =
      (cyclicRegistry.Query ["a".toList]).map (fun x => ("zzz".toList :: x.1, x.2)) :=
  ⟨walk_missing_root_spec.1 cyclicRegistry.packages 0 [] "zzz".toList (by decide),
   walk_missing_root_spec.2 cyclicRegistry "zzz".toList ["a".toList] (by decide)⟩

/-! ### Query (claim C7) -/

/-- Claim C7 (confirmed): `Query` returns the caller-supplied root paths
verbatim as its first component, and as its second the visited set
materialized at the end of walking every root into one shared set: an
entry `(k, p)` is visited iff `p` is the registry node at key `k` and `k`
is reachable from some query root, and the visited keys are
duplicate-free (a de-duplicated, order-independent union). -/
theorem query_spec (pr : PackageRegistry) (queries : List GoStr) (hwf : WFReg pr.packages) :
    ∃ acc, walkRoots pr.packages [] queries = some acc ∧
      pr.Query queries = some (queries, acc.map Prod.snd) ∧
      (keysOf acc).Nodup ∧
      (∀ k p, (k, p) ∈ acc ↔
        (lookupKey pr.packages k = some p ∧ ∃ r ∈ queries, Reaches pr.packages r k)) := by
  obtain ⟨acc, h, hg, hnd, _, hiff⟩ :=
    walkRoots_spec hwf queries [] (AccGood_nil _) List.nodup_nil (ClosedAll_nil _)
  refine ⟨acc, h, by simp [PackageRegistry.Query, h], hnd, ?_⟩
  intro k p
  constructor
  · intro hm
    obtain ⟨hl, _⟩ := hg (k, p) hm
    have hk : k ∈ keysOf acc := mem_keysOf.mpr ⟨p, hm⟩
    rcases (hiff k).mp hk with h0 | h1
    · exact absurd h0 (by simp [keysOf])
    · exact ⟨hl, h1⟩
  · rintro ⟨hl, hreach⟩
    have hk : k ∈ keysOf acc := (hiff k).mpr (Or.inr hreach)
    obtain ⟨p', hp'⟩ := mem_keysOf.mp hk
    have hl' := (hg (k, p') hp').1
    have hpp : p' = p := Option.some.inj (hl'.symm.trans hl)
    subst hpp
    exact hp'

theorem query_spec_witness :
    ∃ acc, walkRoots cyclicRegistry.packages [] ["a".toList] = some acc ∧
      cyclicRegistry.Query ["a".toList] = some (["a".toList], acc.map Prod.snd) ∧
      (keysOf acc).Nodup ∧
      (∀ k p, (k, p) ∈ acc ↔
        (lookupKey cyclicRegistry.packages k = some p ∧
          ∃ r ∈ (["a".toList] : List GoStr), Reaches cyclicRegistry.packages r k)) :=
  query_spec cyclicRegistry ["a".toList] (by decide)

/-! ### Match root derivation (claim C8) -/

theorem mem_insertRoot {roots : List GoStr} {r x : GoStr} :
    x ∈ insertRoot roots r ↔ x ∈ roots ∨ x = r := by
  unfold insertRoot
  by_cases h : r ∈ roots
  · rw [if_pos h]
    constructor
    · exact Or.inl
    · rintro (hx | rfl)
      · exact hx
      · exact h
  · rw [if_neg h]
    simp [List.mem_append]

theorem nodup_insertRoot {roots : List GoStr} {r : GoStr} (h : roots.Nodup) :
    (insertRoot roots r).Nodup := by
  unfold insertRoot
  by_cases hm : r ∈ roots
  · rw [if_pos hm]
    exact h
  · rw [if_neg hm]
    rw [List.nodup_append]
    refine ⟨h, List.nodup_singleton r, ?_⟩
    intro a ha hb
    rw [List.mem_singleton] at hb
    subst hb
    exact hm ha

theorem mem_stdlibFold (ps : List (GoStr × FlatPackage)) :
    ∀ (roots : List GoStr) (x : GoStr),
      x ∈ ps.foldl (fun r e => if e.2.Standard then insertRoot r e.2.ID else r) roots ↔
        (x ∈ roots ∨ ∃ e ∈ ps, (e.2).Standard = true ∧ (e.2).ID = x) := by
  induction ps with
  | nil =>
    intro roots x
    rw [List.foldl_nil]
    constructor
    · exact Or.inl
    · rintro (hr | ⟨e, he, _⟩)
      · exact hr
      · exact absurd he (List.not_mem_nil e)
  | cons e rest ih =>
    intro roots x
    rw [List.foldl_cons]
    cases hstd : e.2.Standard with
    | true =>
      rw [if_pos rfl, ih (insertRoot roots e.2.ID) x]
      constructor
      · rintro (hm | hex)
        · rcases mem_insertRoot.mp hm with hr | rfl
          · exact Or.inl hr
          · exact Or.inr ⟨e, List.mem_cons_self _ _, hstd, rfl⟩
        · obtain ⟨e', he', hs1, hs2⟩ := hex
          exact Or.inr ⟨e', List.mem_cons_of_mem _ he', hs1, hs2⟩
      · rintro (hr | ⟨e', he', hs1, hs2⟩)
        · exact Or.inl (mem_insertRoot.mpr (Or.inl hr))
        · rcases List.mem_cons.mp he' with rfl | he''
          · exact Or.inl (mem_insertRoot.mpr (Or.inr hs2.symm))
          · exact Or.inr ⟨e', he'', hs1, hs2⟩
    | false =>
      rw [if_neg Bool.false_ne_true, ih roots x]
      constructor
      · rintro (hr | ⟨e', he', hs1, hs2⟩)
        · exact Or.inl hr
        · exact Or.inr ⟨e', List.mem_cons_of_mem _ he', hs1, hs2⟩
      · rintro (hr | ⟨e', he', hs1, hs2⟩)
        · exact Or.inl hr
        · rcases List.mem_cons.mp he' with rfl | he''
          · rw [hstd] at hs1; cases hs1
          · exact Or.inr ⟨e', he'', hs1, hs2⟩

theorem nodup_stdlibFold (ps : List (GoStr × FlatPackage)) :
    ∀ roots : List GoStr, roots.Nodup →
      (ps.foldl (fun r e => if e.2.Standard then insertRoot r e.2.ID else r) roots).Nodup := by
  induction ps with
  | nil => intro roots h; exact h
  | cons e rest ih =>
    intro roots h
    rw [List.foldl_cons]
    cases hstd : e.2.Standard with
    | true =>
      rw [if_pos rfl]
      exact ih _ (nodup_insertRoot h)
    | false =>
      rw [if_neg Bool.false_ne_true]
      exact ih _ h

theorem mem_matchRootsOne {pr : PackageRegistry} {roots : List GoStr} {label x : GoStr} :
    x ∈ matchRootsOne pr roots label ↔ x ∈ roots ∨ MatchContrib pr label x := by
  simp only [matchRootsOne, MatchContrib]
  by_cases hstd : normalizeLabel label = RulesGoStdlibLabel
  · rw [if_pos hstd, mem_stdlibFold pr.packages roots x]
    constructor
    · rintro (hr | hex)
      · exact Or.inl hr
      · exact Or.inr (Or.inl ⟨hstd, hex⟩)
    · rintro (hr | (⟨_, hex⟩ | ⟨hne, _⟩))
      · exact Or.inl hr
      · exact Or.inr hex
      · exact absurd hstd hne
  · rw [if_neg hstd]
    by_cases hx : (lookupKey pr.packages (normalizeLabel label ++ xtestSuffix)).isSome = true
    · rw [if_pos hx, mem_insertRoot, mem_insertRoot]
      constructor
      · rintro ((hr | rfl) | rfl)
        · exact Or.inl hr
        · exact Or.inr (Or.inr ⟨hstd, Or.inl rfl⟩)
        · exact Or.inr (Or.inr ⟨hstd, Or.inr ⟨rfl, hx⟩⟩)
      · rintro (hr | (⟨heq, _⟩ | ⟨_, (rfl | ⟨rfl, _⟩)⟩))
        · exact Or.inl (Or.inl hr)
        · exact absurd heq hstd
        · exact Or.inl (Or.inr rfl)
        · exact Or.inr rfl
    · rw [if_neg hx, mem_insertRoot]
      constructor
      · rintro (hr | rfl)
        · exact Or.inl hr
        · exact Or.inr (Or.inr ⟨hstd, Or.inl rfl⟩)
      · rintro (hr | (⟨heq, _⟩ | ⟨_, (rfl | ⟨rfl, hx'⟩)⟩))
        · exact Or.inl hr
        · exact absurd heq hstd
        · exact Or.inr rfl
        · exact absurd hx' hx

theorem nodup_matchRootsOne {pr : PackageRegistry} {roots : List GoStr} {label : GoStr}
    (h : roots.Nodup) : (matchRootsOne pr roots label).Nodup := by
  simp only [matchRootsOne]
  by_cases hstd : normalizeLabel label = RulesGoStdlibLabel
  · rw [if_pos hstd]
    exact nodup_stdlibFold pr.packages roots h
  · rw [if_neg hstd]
    by_cases hx : (lookupKey pr.packages (normalizeLabel label ++ xtestSuffix)).isSome = true
    · rw [if_pos hx]
      exact nodup_insertRoot (nodup_insertRoot h)
    · rw [if_neg hx]
      exact nodup_insertRoot h

theorem mem_matchRoots_fold {pr : PackageRegistry} (labels : List GoStr) :
    ∀ (roots : List GoStr) (x : GoStr),
      x ∈ labels.foldl (matchRootsOne pr) roots ↔
        x ∈ roots ∨ ∃ label ∈ labels, MatchContrib pr label x := by
  induction labels with
  | nil => intro roots x; simp
  | cons l rest ih =>
    intro roots x
    rw [List.foldl_cons, ih (matchRootsOne pr roots l) x]
    constructor
    · rintro (hm | ⟨lab, hlab, hc⟩)
      · rcases mem_matchRootsOne.mp hm with hr | hc
        · exact Or.inl hr
        · exact Or.inr ⟨l, List.mem_cons_self _ _, hc⟩
      · exact Or.inr ⟨lab, List.mem_cons_of_mem _ hlab, hc⟩
    · rintro (hr | ⟨lab, hlab, hc⟩)
      · exact Or.inl (mem_matchRootsOne.mpr (Or.inl hr))
      · rcases List.mem_cons.mp hlab with rfl | h''
        · exact Or.inl (mem_matchRootsOne.mpr (Or.inr hc))
        · exact Or.inr ⟨lab, h'', hc⟩

theorem nodup_matchRoots_fold {pr : PackageRegistry} (labels : List GoStr) :
    ∀ roots : List GoStr, roots.Nodup → (labels.foldl (matchRootsOne pr) roots).Nodup := by
  induction labels with
  | nil => intro roots h; exact h
  | cons l rest ih =>
    intro roots h
    rw [List.foldl_cons]
    exact ih _ (nodup_matchRootsOne h)

/-- Claim C8 (confirmed): `Match` normalizes each label by prepending the
repository anchor `@` exactly when it is missing; the reserved
standard-library root label contributes every standard-library-flagged
node's identity as a root; every other normalized label contributes
itself, plus the `_xtest` companion key when that key exists in the
registry; and the resulting root list is duplicate-free (set-based
de-duplication before walking). -/
theorem match_roots_spec (pr : PackageRegistry) (labels : List GoStr) :
    (∀ label : GoStr, ¬ List.IsPrefix "@".toList label →
      normalizeLabel label = "@".toList ++ label) ∧
    (∀ label : GoStr, List.IsPrefix "@".toList label → normalizeLabel label = label) ∧
    (∀ x, x ∈ matchRoots pr labels ↔ ∃ label ∈ labels, MatchContrib pr label x) ∧
    (matchRoots pr labels).Nodup := by
  refine ⟨?_, ?_, ?_, ?_⟩
  · intro label h
    have hf : ("@".toList).isPrefixOf label = false := by
      cases hp : ("@".toList).isPrefixOf label with
      | true => exact absurd (List.isPrefixOf_iff_prefix.mp hp) h
      | false => rfl
    simp only [normalizeLabel, hf, Bool.false_eq_true, if_false]
  · intro label h
    simp only [normalizeLabel, List.isPrefixOf_iff_prefix.mpr h, if_true]
  · intro x
    rw [matchRoots, mem_matchRoots_fold labels [] x]
    simp
  · rw [matchRoots]
    exact nodup_matchRoots_fold labels [] List.nodup_nil

theorem match_roots_spec_witness :
    normalizeLabel "lbl".toList = "@".toList ++ "lbl".toList ∧
    normalizeLabel "@z".toList = "@z".toList :=
  ⟨(match_roots_spec emptyRegistry []).1 "lbl".toList (by decide),
   (match_roots_spec emptyRegistry []).2.1 "@z".toList (by decide)⟩

/-! ### Import resolution (claim C9) -/

theorem resolveStep_ok_of_ok {ε : Type} (rn : NodeResolver ε) (ts : TestSplitter)
    (resolve : GoStr → GoStr) (pr0 : PackageRegistry) (e : GoStr × FlatPackage)
    {pkg' : FlatPackage} (hrn : rn resolve e.2 = Except.ok pkg') :
    ∃ pr1, resolveStep rn ts resolve pr0 e = Except.ok pr1 := by
  simp only [resolveStep, hrn]
  cases (ts pkg').2 with
  | none => exact ⟨_, rfl⟩
  | some t => exact ⟨_, rfl⟩

theorem resolveLoop_error_iff {ε : Type} (rn : NodeResolver ε) (ts : TestSplitter)
    (resolve : GoStr → GoStr) (err : ε) :
    ∀ (entries : List (GoStr × FlatPackage)) (pr0 : PackageRegistry),
      resolveLoop rn ts resolve pr0 entries = Except.error err ↔
        ∃ pre e post, entries = pre ++ e :: post ∧
          (∀ e' ∈ pre, ∃ p', rn resolve e'.2 = Except.ok p') ∧
          rn resolve e.2 = Except.error err := by
  intro entries
  induction entries with
  | nil =>
    intro pr0
    constructor
    · intro h
      simp [resolveLoop] at h
    · rintro ⟨pre, e, post, habs, _, _⟩
      cases pre <;> simp at habs
  | cons e0 rest ih =>
    intro pr0
    cases hrn : rn resolve e0.2 with
    | error e1 =>
      have hstep : resolveStep rn ts resolve pr0 e0 = Except.error e1 := by
        simp [resolveStep, hrn]
      constructor
      · intro h
        simp only [resolveLoop, hstep] at h
        have he1 : e1 = err := Except.error.inj h
        subst he1
        refine ⟨[], e0, rest, rfl, ?_, hrn⟩
        intro e' he'
        exact absurd he' (List.not_mem_nil e')
      · rintro ⟨pre, e, post, heq, hpre, herr⟩
        cases pre with
        | nil =>
          rw [List.nil_append, List.cons.injEq] at heq
          obtain ⟨rfl, rfl⟩ := heq
          rw [hrn] at herr
          have he1 : e1 = err := Except.error.inj herr
          subst he1
          simp only [resolveLoop, hstep]
        | cons p pre' =>
          rw [List.cons_append, List.cons.injEq] at heq
          obtain ⟨rfl, _⟩ := heq
          obtain ⟨p', hp'⟩ := hpre e0 (List.mem_cons_self _ _)
          rw [hrn] at hp'
          cases hp'
    | ok pkg' =>
      obtain ⟨pr1, hstep⟩ := resolveStep_ok_of_ok rn ts resolve pr0 e0 hrn
      constructor
      · intro h
        simp only [resolveLoop, hstep] at h
        obtain ⟨pre, e, post, heq, hpre, herr⟩ := (ih pr1).mp h
        refine ⟨e0 :: pre, e, post, by rw [heq, List.cons_append], ?_, herr⟩
        intro e' he'
        rcases List.mem_cons.mp he' with rfl | he''
        · exact ⟨pkg', hrn⟩
        · exact hpre e' he''
      · rintro ⟨pre, e, post, heq, hpre, herr⟩
        cases pre with
        | nil =>
          rw [List.nil_append, List.cons.injEq] at heq
          obtain ⟨rfl, rfl⟩ := heq
          rw [hrn] at herr
          cases herr
        | cons p pre' =>
          rw [List.cons_append, List.cons.injEq] at heq
          obtain ⟨rfl, hrest⟩ := heq
          simp only [resolveLoop, hstep]
          exact (ih pr1).mpr
            ⟨pre', e, post, hrest, fun e' he' => hpre e' (List.mem_cons_of_mem _ he'), herr⟩

/-- Claim C9 (confirmed, against the spec-modelled delegated steps): the
resolver closure maps an import path to the indexed identity when the
standard-library index has it and to the empty string otherwise, never
erring; `ResolveImports` returns an error exactly when the delegated
per-node resolution step fails on some node all of whose loop
predecessors succeeded — the error is propagated as-is and the remaining
loop is skipped; and a non-null split node produced by the (never
failing) test-split step is inserted under its own identity. -/
theorem resolveImports_spec {ε : Type} (rn : NodeResolver ε) (ts : TestSplitter)
    (pr : PackageRegistry) :
    (∀ ip id, lookupKey pr.stdlib ip = some id → resolveFn pr ip = id) ∧
    (∀ ip, lookupKey pr.stdlib ip = none → resolveFn pr ip = []) ∧
    (∀ err, pr.ResolveImports rn ts = Except.error err ↔
      ∃ pre e post, pr.packages = pre ++ e :: post ∧
        (∀ e' ∈ pre, ∃ p', rn (resolveFn pr) e'.2 = Except.ok p') ∧
        rn (resolveFn pr) e.2 = Except.error err) ∧
    (∀ (resolve : GoStr → GoStr) (pr0 : PackageRegistry) (entry : GoStr × FlatPackage)
        (pr1 : PackageRegistry) (pkg' testFp : FlatPackage),
      rn resolve entry.2 = Except.ok pkg' → (ts pkg').2 = some testFp →
      resolveStep rn ts resolve pr0 entry = Except.ok pr1 →
      lookupKey pr1.packages testFp.ID = some testFp) := by
  refine ⟨?_, ?_, ?_, ?_⟩
  · intro ip id h
    simp [resolveFn, h]
  · intro ip h
    simp [resolveFn, h]
  · intro err
    exact resolveLoop_error_iff rn ts (resolveFn pr) err pr.packages pr
  · intro resolve pr0 entry pr1 pkg' testFp hok hts hstep
    simp only [resolveStep, hok, hts] at hstep
    have h1 := Except.ok.inj hstep
    rw [← h1]
    exact lookupKey_insert_self

theorem resolveImports_spec_witness :
    resolveFn stdReg "fmt".toList = "fmt".toList ∧ resolveFn stdReg "zzz".toList = [] :=
  ⟨(resolveImports_spec rnW tsW stdReg).1 "fmt".toList "fmt".toList (by decide),
   (resolveImports_spec rnW tsW stdReg).2.1 "zzz".toList (by decide)⟩

/-! ### The standard-library index invariant (claim C10) -/

theorem add1_packages_eq (pr : PackageRegistry) (pkg : FlatPackage) :
    (add1 pr pkg).packages = insertKey pr.packages pkg.PkgPath (rewritePackage pkg) := rfl

theorem add1_stdlib_eq (pr : PackageRegistry) (pkg : FlatPackage) :
    (add1 pr pkg).stdlib =
      if pkg.Standard then insertKey pr.stdlib pkg.PkgPath pkg.PkgPath else pr.stdlib := rfl

theorem add1_stdlibInv {pr : PackageRegistry} {pkg : FlatPackage} (hinv : StdlibInv pr)
    (hok : pkg.Standard = false → lookupKey pr.stdlib pkg.PkgPath = none) :
    StdlibInv (add1 pr pkg) := by
  intro p id hl
  rw [add1_stdlib_eq] at hl
  cases hstd : pkg.Standard with
  | true =>
    rw [if_pos hstd] at hl
    by_cases hp : p = pkg.PkgPath
    · subst hp
      refine ⟨rewritePackage pkg, ?_, ?_⟩
      · rw [add1_packages_eq]
        exact lookupKey_insert_self
      · rw [rewritePackage_Standard]
        exact hstd
    · rw [lookupKey_insert_ne hp] at hl
      obtain ⟨pkg0, hl0, hstd0⟩ := hinv p id hl
      refine ⟨pkg0, ?_, hstd0⟩
      rw [add1_packages_eq, lookupKey_insert_ne hp]
      exact hl0
  | false =>
    rw [if_neg (by rw [hstd]; exact Bool.false_ne_true)] at hl
    by_cases hp : p = pkg.PkgPath
    · subst hp
      rw [hok hstd] at hl
      cases hl
    · obtain ⟨pkg0, hl0, hstd0⟩ := hinv p id hl
      refine ⟨pkg0, ?_, hstd0⟩
      rw [add1_packages_eq, lookupKey_insert_ne hp]
      exact hl0

theorem Add_stdlibInv : ∀ (pkgs : List FlatPackage) (pr : PackageRegistry),
    StdlibInv pr → addOK pr pkgs → StdlibInv (pr.Add pkgs) := by
  intro pkgs
  induction pkgs with
  | nil => intro pr h _; exact h
  | cons p rest ih =>
    intro pr h hok
    obtain ⟨h1, h2⟩ := hok
    exact ih (add1 pr p) (add1_stdlibInv h h1) h2

theorem Update_stdlibInv {pr : PackageRegistry} {pkg : FlatPackage} {pr' : PackageRegistry}
    (hinv : StdlibInv pr) (h : pr.Update pkg = some pr') : StdlibInv pr' := by
  cases hl : lookupKey pr.packages pkg.PkgPath with
  | none =>
    simp only [PackageRegistry.Update, hl] at h
    have hpr' : pr' = PackageRegistry.mk (insertKey pr.packages pkg.PkgPath pkg) pr.stdlib :=
      (Option.some.inj h).symm
    subst hpr'
    intro p id hsl
    obtain ⟨pkg0, hl0, hstd0⟩ := hinv p id hsl
    by_cases hp : p = pkg.PkgPath
    · subst hp
      rw [hl0] at hl
      cases hl
    · refine ⟨pkg0, ?_, hstd0⟩
      show lookupKey (insertKey pr.packages pkg.PkgPath pkg) p = some pkg0
      rw [lookupKey_insert_ne hp]
      exact hl0
  | some existing =>
    simp only [PackageRegistry.Update, hl] at h
    cases hsup : isSuperset pkg.GoFiles existing.GoFiles with
    | none =>
      rw [hsup] at h
      cases h
    | some r =>
      cases r with
      | true =>
        rw [hsup] at h
        have hpr' : pr' = PackageRegistry.mk
            (insertKey pr.packages pkg.PkgPath ({ existing with GoFiles := pkg.GoFiles }))
            pr.stdlib :=
          (Option.some.inj h).symm
        subst hpr'
        intro p id hsl
        obtain ⟨pkg0, hl0, hstd0⟩ := hinv p id hsl
        by_cases hp : p = pkg.PkgPath
        · subst hp
          have hpkg0 : pkg0 = existing := Option.some.inj (hl0.symm.trans hl)
          subst hpkg0
          refine ⟨{ pkg0 with GoFiles := pkg.GoFiles }, ?_, hstd0⟩
          show lookupKey (insertKey pr.packages pkg.PkgPath ({ pkg0 with GoFiles := pkg.GoFiles }))
            pkg.PkgPath = some _
          exact lookupKey_insert_self
        · refine ⟨pkg0, ?_, hstd0⟩
          show lookupKey (insertKey pr.packages pkg.PkgPath ({ existing with GoFiles := pkg.GoFiles }))
            p = some pkg0
          rw [lookupKey_insert_ne hp]
          exact hl0
      | false =>
        rw [hsup] at h
        have hpr' : pr' = pr := (Option.some.inj h).symm
        subst hpr'
        exact hinv

theorem StdlibInv_empty : StdlibInv emptyRegistry := by
  intro p id h
  simp [emptyRegistry, lookupKey] at h

/-- Claim C10 (corrected/amended): every index entry is placed by an
`Add` of a node standard-library-flagged at insertion time, and as long
as no `Add` registers a non-flagged node at a path that is already
standard-library-indexed (the `opsOK` condition), any sequence of `Add`
and `Update` operations preserves the invariant that every index entry's
node exists in the registry and is standard-library-flagged. Without
that condition a later non-flagged registration at an indexed path
leaves a stale index entry (see the counterexample). -/
theorem stdlib_index_spec : ∀ (ops : List RegOp) (pr : PackageRegistry),
    StdlibInv pr → opsOK pr ops → ∀ pr', applyOps pr ops = some pr' → StdlibInv pr' := by
  intro ops
  induction ops with
  | nil =>
    intro pr hinv _ pr' h
    have hpr' : pr' = pr := (Option.some.inj h).symm
    subst hpr'
    exact hinv
  | cons op rest ih =>
    intro pr hinv hok pr' h
    obtain ⟨hop, hrest⟩ := hok
    cases hap : applyOp pr op with
    | none =>
      simp only [applyOps, hap] at h
      cases h
    | some pr1 =>
      simp only [applyOps, hap] at h
      have hinv1 : StdlibInv pr1 := by
        cases op with
        | addOp pkgs =>
          have : pr1 = pr.Add pkgs := (Option.some.inj hap).symm
          subst this
          exact Add_stdlibInv pkgs pr hinv hop
        | updateOp pkg =>
          exact Update_stdlibInv hinv hap
      exact ih pr1 hinv1 (hrest pr1 hap) pr' h

/-- Claim C10 counterexample: adding a standard-library node at path `p`
and then a non-standard-library node at the same path leaves the index
entry for `p` in place while the registry's node at `p` is no longer
standard-library-flagged. -/
theorem stdlib_index_counterexample :
    applyOps emptyRegistry cexOps = some cexReg ∧
    lookupKey cexReg.stdlib "p".toList = some "p".toList ∧
    lookupKey cexReg.packages "p".toList = some nonstdP ∧
    nonstdP.Standard = false := ⟨by decide, by decide, by decide, by decide⟩

theorem stdlib_index_spec_witness : StdlibInv addedStdReg := by
  refine stdlib_index_spec [RegOp.addOp [stdP]] emptyRegistry StdlibInv_empty ?_ addedStdReg
    (by decide)
  refine ⟨⟨?_, trivial⟩, fun pr' _ => trivial⟩
  intro h
  exact absurd h (by decide)
